import Mathlib

/-! Verification of the shading math library declared in
`src/steelsky/Shaders/Common.h`. The header contains constants, the `Ray`
structure and function declarations only; where a claim depends on a function
body, the body is modelled from the specification, as noted on each
definition. Shader `float` values are modelled as real numbers. -/

noncomputable section

/-- Constant from `Common.h` line 10: `constant float PI = 3.14159265359;`. -/
def PI : ℝ := 3.14159265359

/-- Constant from `Common.h` line 11: `constant float ESM_FACTOR = 100.0;`. -/
def ESM_FACTOR : ℝ := 100.0

/-- Metal `float3` vector, components modelled as reals. -/
structure Float3 where
  x : ℝ
  y : ℝ
  z : ℝ

/-- Componentwise vector addition. -/
def Float3.add (a b : Float3) : Float3 :=
  ⟨a.x + b.x, a.y + b.y, a.z + b.z⟩

/-- Componentwise vector subtraction. -/
def Float3.sub (a b : Float3) : Float3 :=
  ⟨a.x - b.x, a.y - b.y, a.z - b.z⟩

/-- Scalar multiplication of a vector. -/
def Float3.smul (t : ℝ) (a : Float3) : Float3 :=
  ⟨t * a.x, t * a.y, t * a.z⟩

/-- Euclidean dot product. -/
def Float3.dot (a b : Float3) : ℝ :=
  a.x * b.x + a.y * b.y + a.z * b.z

/-- Euclidean length of a vector. -/
def Float3.norm (v : Float3) : ℝ :=
  Real.sqrt (v.dot v)

/-- The `Ray` structure from `Common.h`: origin and direction. -/
structure Ray where
  origin : Float3
  direction : Float3

/-- `createRay` from `Common.h`: constructs a ray value with no validation. -/
def createRay (origin direction : Float3) : Ray :=
  ⟨origin, direction⟩

/-- Discriminant of the quadratic ray-sphere equation
`a*t^2 + b*t + c = 0` with `a = dot(d,d)`, `b = 2*dot(o-s,d)`,
`c = dot(o-s,o-s) - r^2`. -/
def sphereDisc (ray : Ray) (sphereCenter : Float3) (sphereRadius : ℝ) : ℝ :=
  (2 * (ray.origin.sub sphereCenter).dot ray.direction) ^ 2
    - 4 * ray.direction.dot ray.direction
        * ((ray.origin.sub sphereCenter).dot (ray.origin.sub sphereCenter)
            - sphereRadius ^ 2)

/-- Modelled from the spec: the body of `raySphereIntersect` is not in the
header. The spec says it solves the quadratic intersection of the ray with the
sphere, returns whether real roots exist (discriminant ≥ 0), and when true
outputs the two parametric distances `t0 ≤ t1`. A `false` return with
undefined outputs is modelled as `none`. -/
def raySphereIntersect (ray : Ray) (sphereCenter : Float3) (sphereRadius : ℝ) :
    Option (ℝ × ℝ) :=
  if sphereDisc ray sphereCenter sphereRadius < 0 then none
  else
    some
      ((-(2 * (ray.origin.sub sphereCenter).dot ray.direction)
          - Real.sqrt (sphereDisc ray sphereCenter sphereRadius))
          / (2 * ray.direction.dot ray.direction),
        (-(2 * (ray.origin.sub sphereCenter).dot ray.direction)
          + Real.sqrt (sphereDisc ray sphereCenter sphereRadius))
          / (2 * ray.direction.dot ray.direction))

/-- Modelled from the spec: the body of `raySphereIntersectNearest` is not in
the header. The spec says it is a convenience wrapper returning the smaller
positive root, or a sentinel negative value when no intersection exists ahead
of the ray origin; the sentinel is modelled as `-1`. -/
def raySphereIntersectNearest (ray : Ray) (sphereCenter : Float3)
    (sphereRadius : ℝ) : ℝ :=
  match raySphereIntersect ray sphereCenter sphereRadius with
  | none => -1
  | some (t0, t1) => if 0 < t0 then t0 else if 0 < t1 then t1 else -1

/-- Modelled from the spec: the body of `rayleighPhase` is not in the header.
The spec gives the formula `(3/(16π)) * (1 + cosTheta²)`, computed with the
library constant `PI`. -/
def rayleighPhase (cosTheta : ℝ) : ℝ :=
  3 / (16 * PI) * (1 + cosTheta ^ 2)

/-- Modelled from the spec: the body of `cornetteShanksPhase` is not in the
header. The spec names the Cornette-Shanks approximation to Mie scattering
with asymmetry parameter `g`; its closed form is
`(3/(8π)) * (1-g²)(1+cosTheta²) / ((2+g²)(1+g²-2g·cosTheta)^(3/2))`,
computed with the library constant `PI`. -/
def cornetteShanksPhase (g cosTheta : ℝ) : ℝ :=
  3 / (8 * PI) * ((1 - g ^ 2) * (1 + cosTheta ^ 2))
    / ((2 + g ^ 2) * ((1 + g ^ 2 - 2 * g * cosTheta)
        * Real.sqrt (1 + g ^ 2 - 2 * g * cosTheta)))

/-- Modelled from the spec: the body of `dualLobPhase` is not in the header.
The spec gives the linear blend
`w * cornetteShanksPhase(g0, cosTheta) + (1-w) * cornetteShanksPhase(g1, cosTheta)`. -/
def dualLobPhase (g0 g1 w cosTheta : ℝ) : ℝ :=
  w * cornetteShanksPhase g0 cosTheta + (1 - w) * cornetteShanksPhase g1 cosTheta

/-- Modelled from the spec: the body of `uniformPhase` is not in the header.
The spec says it is the constant `1/(4π)`, computed with the library
constant `PI`. -/
def uniformPhase : ℝ :=
  1 / (4 * PI)

/-- Modelled from the spec: the body of `mix` is not in the header. The spec
gives componentwise linear interpolation `a + t*(b-a)` with no clamping. -/
def mix (a b : Float3) (t : ℝ) : Float3 :=
  a.add (Float3.smul t (b.sub a))

/-- Modelled from the spec: the body of `mean` is not in the header. The spec
says it is the arithmetic mean of the three components. -/
def mean (v : Float3) : ℝ :=
  (v.x + v.y + v.z) / 3

/-- Solid-angle integral over the unit sphere of directions of an azimuthally
symmetric function of the scattering-angle cosine: with the substitution
`c = cos θ`, `∫ p dΩ = 2π ∫_{-1}^{1} p(c) dc`. The factor `2π` uses the exact
mathematical `π`, since it comes from the integration geometry and not from
the library code. -/
def sphereIntegral (p : ℝ → ℝ) : ℝ :=
  2 * Real.pi * ∫ c in (-1 : ℝ)..1, p c

/-- Closed-form antiderivative in `c` of
`(1 + c^2) / ((1 + g^2 - 2*g*c)^(3/2))`, valid for `g ≠ 0` where the sqrt
argument is positive; used to evaluate the Cornette-Shanks normalization
integral. -/
def csF (g c : ℝ) : ℝ :=
  1 / g * (1 + (1 + g ^ 2) ^ 2 / (4 * g ^ 2))
      / Real.sqrt (1 + g ^ 2 - 2 * g * c)
    + (1 + g ^ 2) / (2 * g ^ 3) * Real.sqrt (1 + g ^ 2 - 2 * g * c)
    - 1 / (12 * g ^ 3) * ((1 + g ^ 2 - 2 * g * c)
        * Real.sqrt (1 + g ^ 2 - 2 * g * c))

/-- Dot product of a vector with itself is non-negative. -/
theorem Float3.dot_self_nonneg (v : Float3) : 0 ≤ v.dot v := by
  unfold Float3.dot
  nlinarith [mul_self_nonneg v.x, mul_self_nonneg v.y, mul_self_nonneg v.z]

/-- Any `t = (-B + s)/(2A)` with `s^2` the discriminant is a root of
`A*t^2 + B*t + C`. -/
theorem quad_root_eval (A B C s t : ℝ) (hA : A ≠ 0) (hs : s ^ 2 = B ^ 2 - 4 * A * C)
    (ht : t = (-B + s) / (2 * A)) : A * t ^ 2 + B * t + C = 0 := by
  have key : A * ((-B + s) / (2 * A)) ^ 2 + B * ((-B + s) / (2 * A)) + C
      = (s ^ 2 - (B ^ 2 - 4 * A * C)) / (4 * A) := by
    field_simp
    ring
  rw [ht, key, hs]
  simp

/-- With a positive leading coefficient the minus-root is at most the
plus-root. -/
theorem quad_roots_order (A B C : ℝ) (hA : 0 < A) :
    (-B - Real.sqrt (B ^ 2 - 4 * A * C)) / (2 * A)
      ≤ (-B + Real.sqrt (B ^ 2 - 4 * A * C)) / (2 * A) := by
  have h2A : 0 < 2 * A := by linarith
  exact (div_le_div_iff_of_pos_right h2A).2
    (by linarith [Real.sqrt_nonneg (B ^ 2 - 4 * A * C)])

/-- When the constant coefficient is positive, the linear one negative and the
discriminant positive, both roots are positive and strictly ordered. -/
theorem quad_roots_pos (A B C : ℝ) (hA : 0 < A) (hC : 0 < C) (hB : B < 0)
    (hd : 0 < B ^ 2 - 4 * A * C) :
    0 < (-B - Real.sqrt (B ^ 2 - 4 * A * C)) / (2 * A)
      ∧ (-B - Real.sqrt (B ^ 2 - 4 * A * C)) / (2 * A)
        < (-B + Real.sqrt (B ^ 2 - 4 * A * C)) / (2 * A) := by
  have h2A : 0 < 2 * A := by linarith
  have hs : Real.sqrt (B ^ 2 - 4 * A * C) < -B := by
    rw [Real.sqrt_lt' (by linarith)]
    nlinarith [mul_pos hA hC]
  have hspos : 0 < Real.sqrt (B ^ 2 - 4 * A * C) := Real.sqrt_pos.2 hd
  exact ⟨div_pos (by linarith) h2A, (div_lt_div_iff_of_pos_right h2A).2 (by linarith)⟩

/-- Squared distance from the point at parameter `t` on a ray to a center,
expanded as a quadratic in `t`. -/
theorem ray_point_distSq (ray : Ray) (ctr : Float3) (t : ℝ) :
    ((ray.origin.add (Float3.smul t ray.direction)).sub ctr).dot
        ((ray.origin.add (Float3.smul t ray.direction)).sub ctr)
      = ray.direction.dot ray.direction * t ^ 2
        + 2 * (ray.origin.sub ctr).dot ray.direction * t
        + (ray.origin.sub ctr).dot (ray.origin.sub ctr) := by
  simp only [Float3.dot, Float3.add, Float3.sub, Float3.smul]
  ring

/-- C1: `raySphereIntersect` (for a non-zero-length direction) reports a hit
exactly when the discriminant of the quadratic ray-sphere equation is
non-negative, returns `none` when it is negative, and on a hit outputs
`t0 ≤ t1`; moreover for an origin outside the sphere with the direction
pointing toward it (negative projection, strictly positive discriminant) both
roots are positive with `t0 < t1` and the two ray points lie at distance
`sphereRadius` from the center. -/
theorem raySphereIntersect_spec (ray : Ray) (sphereCenter : Float3)
    (sphereRadius : ℝ) (hd : ray.direction.dot ray.direction ≠ 0) :
    ((raySphereIntersect ray sphereCenter sphereRadius).isSome
        ↔ 0 ≤ sphereDisc ray sphereCenter sphereRadius)
      ∧ (sphereDisc ray sphereCenter sphereRadius < 0
          → raySphereIntersect ray sphereCenter sphereRadius = none)
      ∧ ∀ t0 t1,
          raySphereIntersect ray sphereCenter sphereRadius = some (t0, t1)
          → t0 ≤ t1
            ∧ (sphereRadius ^ 2
                  < (ray.origin.sub sphereCenter).dot (ray.origin.sub sphereCenter)
                → (ray.origin.sub sphereCenter).dot ray.direction < 0
                → 0 < sphereDisc ray sphereCenter sphereRadius
                → 0 ≤ sphereRadius
                → 0 < t0 ∧ t0 < t1
                  ∧ Float3.norm ((ray.origin.add
                      (Float3.smul t0 ray.direction)).sub sphereCenter)
                      = sphereRadius
                  ∧ Float3.norm ((ray.origin.add
                      (Float3.smul t1 ray.direction)).sub sphereCenter)
                      = sphereRadius) := by
  have ha : 0 < ray.direction.dot ray.direction :=
    lt_of_le_of_ne (Float3.dot_self_nonneg _) (Ne.symm hd)
  refine ⟨?_, ?_, ?_⟩
  · unfold raySphereIntersect
    split_ifs with h
    · simpa using not_le.2 h
    · simpa using not_lt.1 h
  · intro hneg
    unfold raySphereIntersect
    rw [if_pos hneg]
  · intro t0 t1 hsome
    unfold raySphereIntersect at hsome
    split_ifs at hsome with h
    push_neg at h
    rw [Option.some_inj, Prod.mk.injEq] at hsome
    obtain ⟨ht0, ht1⟩ := hsome
    have hDeq : Real.sqrt (sphereDisc ray sphereCenter sphereRadius) ^ 2
        = (2 * (ray.origin.sub sphereCenter).dot ray.direction) ^ 2
          - 4 * ray.direction.dot ray.direction
            * ((ray.origin.sub sphereCenter).dot (ray.origin.sub sphereCenter)
                - sphereRadius ^ 2) :=
      Real.sq_sqrt h
    have hroot0 : ray.direction.dot ray.direction * t0 ^ 2
        + 2 * (ray.origin.sub sphereCenter).dot ray.direction * t0
        + ((ray.origin.sub sphereCenter).dot (ray.origin.sub sphereCenter)
            - sphereRadius ^ 2) = 0 := by
      refine quad_root_eval _ _ _
        (-Real.sqrt (sphereDisc ray sphereCenter sphereRadius)) t0 hd ?_ ?_
      · rw [neg_pow]
        simpa using hDeq
      · rw [← ht0]
        ring
    have hroot1 : ray.direction.dot ray.direction * t1 ^ 2
        + 2 * (ray.origin.sub sphereCenter).dot ray.direction * t1
        + ((ray.origin.sub sphereCenter).dot (ray.origin.sub sphereCenter)
            - sphereRadius ^ 2) = 0 := by
      refine quad_root_eval _ _ _
        (Real.sqrt (sphereDisc ray sphereCenter sphereRadius)) t1 hd hDeq ?_
      rw [← ht1]
    have hdist : ∀ t,
        ray.direction.dot ray.direction * t ^ 2
          + 2 * (ray.origin.sub sphereCenter).dot ray.direction * t
          + ((ray.origin.sub sphereCenter).dot (ray.origin.sub sphereCenter)
              - sphereRadius ^ 2) = 0
        → 0 ≤ sphereRadius
        → Float3.norm ((ray.origin.add (Float3.smul t ray.direction)).sub
            sphereCenter) = sphereRadius := by
      intro t hroot hr
      rw [Float3.norm, ray_point_distSq]
      have hq : ray.direction.dot ray.direction * t ^ 2
          + 2 * (ray.origin.sub sphereCenter).dot ray.direction * t
          + (ray.origin.sub sphereCenter).dot (ray.origin.sub sphereCenter)
          = sphereRadius ^ 2 := by
        linear_combination hroot
      rw [hq, Real.sqrt_sq hr]
    constructor
    · rw [← ht0, ← ht1]
      exact quad_roots_order _ _ _ ha
    · intro hout htoward hdiscpos hr
      have hpos := quad_roots_pos (ray.direction.dot ray.direction)
        (2 * (ray.origin.sub sphereCenter).dot ray.direction)
        ((ray.origin.sub sphereCenter).dot (ray.origin.sub sphereCenter)
          - sphereRadius ^ 2) ha (by linarith) (by linarith) hdiscpos
      refine ⟨?_, ?_, hdist t0 hroot0 hr, hdist t1 hroot1 hr⟩
      · rw [← ht0]
        exact hpos.1
      · rw [← ht0, ← ht1]
        exact hpos.2

/-- Witness for C1: a concrete ray from `(0,0,-3)` toward the unit sphere at
the origin is reported as a hit. -/
theorem raySphereIntersect_spec_witness :
    (raySphereIntersect ⟨⟨0, 0, -3⟩, ⟨0, 0, 1⟩⟩ ⟨0, 0, 0⟩ 1).isSome := by
  have h := raySphereIntersect_spec ⟨⟨0, 0, -3⟩, ⟨0, 0, 1⟩⟩ ⟨0, 0, 0⟩ 1
    (by norm_num [Float3.dot])
  exact h.1.mpr (by norm_num [sphereDisc, Float3.dot, Float3.sub])

/-- C2: `raySphereIntersectNearest` returns the smaller root whenever
`raySphereIntersect` reports a hit with a positive smaller root, and a
negative sentinel when there is no hit or both roots are behind the origin. -/
theorem raySphereIntersectNearest_spec (ray : Ray) (sphereCenter : Float3)
    (sphereRadius : ℝ) :
    (∀ t0 t1,
        raySphereIntersect ray sphereCenter sphereRadius = some (t0, t1)
        → 0 < t0
        → raySphereIntersectNearest ray sphereCenter sphereRadius = t0)
      ∧ (raySphereIntersect ray sphereCenter sphereRadius = none
          → raySphereIntersectNearest ray sphereCenter sphereRadius < 0)
      ∧ ∀ t0 t1,
          raySphereIntersect ray sphereCenter sphereRadius = some (t0, t1)
          → t0 ≤ 0 → t1 ≤ 0
          → raySphereIntersectNearest ray sphereCenter sphereRadius < 0 := by
  refine ⟨?_, ?_, ?_⟩
  · intro t0 t1 h ht
    unfold raySphereIntersectNearest
    rw [h]
    simp [ht]
  · intro h
    unfold raySphereIntersectNearest
    rw [h]
    norm_num
  · intro t0 t1 h h0 h1
    unfold raySphereIntersectNearest
    rw [h]
    simp only [if_neg (not_lt.2 h0), if_neg (not_lt.2 h1)]
    norm_num

/-- Witness for C2: on the concrete hit from `(0,0,-3)` to the unit sphere the
nearest-intersection wrapper returns the smaller root `2`. -/
theorem raySphereIntersectNearest_spec_witness :
    raySphereIntersectNearest ⟨⟨0, 0, -3⟩, ⟨0, 0, 1⟩⟩ ⟨0, 0, 0⟩ 1 = 2 := by
  have hs4 : Real.sqrt 4 = 2 := by
    rw [show (4 : ℝ) = 2 ^ 2 by norm_num, Real.sqrt_sq (by norm_num : (0:ℝ) ≤ 2)]
  have hsome : raySphereIntersect ⟨⟨0, 0, -3⟩, ⟨0, 0, 1⟩⟩ ⟨0, 0, 0⟩ 1
      = some (2, 4) := by
    unfold raySphereIntersect
    rw [show sphereDisc ⟨⟨0, 0, -3⟩, ⟨0, 0, 1⟩⟩ ⟨0, 0, 0⟩ 1 = 4 by
      norm_num [sphereDisc, Float3.dot, Float3.sub]]
    rw [if_neg (by norm_num)]
    norm_num [Float3.dot, Float3.sub, hs4]
  exact (raySphereIntersectNearest_spec ⟨⟨0, 0, -3⟩, ⟨0, 0, 1⟩⟩ ⟨0, 0, 0⟩ 1).1
    2 4 hsome (by norm_num)

/-- C3: for every `cosTheta`, `rayleighPhase cosTheta` equals
`(3/(16*PI)) * (1 + cosTheta^2)` with `PI` the library constant. -/
theorem rayleighPhase_eq (cosTheta : ℝ) :
    rayleighPhase cosTheta = 3 / (16 * PI) * (1 + cosTheta ^ 2) := rfl

/-- C4: for every `g0`, `g1`, `w` and `cosTheta`, `dualLobPhase` is the linear
blend `w * cornetteShanksPhase g0 + (1-w) * cornetteShanksPhase g1`; `w` is
universally quantified, so no clamping of the weight is involved. -/
theorem dualLobPhase_eq (g0 g1 w cosTheta : ℝ) :
    dualLobPhase g0 g1 w cosTheta
      = w * cornetteShanksPhase g0 cosTheta
        + (1 - w) * cornetteShanksPhase g1 cosTheta := rfl

/-- C7: `uniformPhase` is exactly the constant `1/(4*PI)` with `PI` the
library constant; it takes no input. -/
theorem uniformPhase_eq : uniformPhase = 1 / (4 * PI) := rfl

/-- C8: with equal asymmetry parameters the dual-lobe blend collapses to the
single-lobe Cornette-Shanks phase function, for every weight `w`. -/
theorem dualLobPhase_collapse (g w cosTheta : ℝ) :
    dualLobPhase g g w cosTheta = cornetteShanksPhase g cosTheta := by
  unfold dualLobPhase
  ring

/-- C9: `mix a b t` equals `a + t*(b-a)` componentwise for every `t` (no
clamping), and in particular `mix a b 0 = a` and `mix a b 1 = b`. -/
theorem mix_spec (a b : Float3) (t : ℝ) :
    mix a b t = ⟨a.x + t * (b.x - a.x), a.y + t * (b.y - a.y),
        a.z + t * (b.z - a.z)⟩
      ∧ mix a b 0 = a ∧ mix a b 1 = b := by
  refine ⟨rfl, ?_, ?_⟩ <;>
    · cases a
      cases b
      simp [mix, Float3.add, Float3.sub, Float3.smul]

/-- C10: `PI` is the fixed literal `3.14159265359` and `ESM_FACTOR` is `100.0`;
`PI` is not the exact mathematical constant `π`; and each pi-dependent phase
function (`rayleighPhase`, `cornetteShanksPhase`, `uniformPhase`) computes with
this approximate `PI`. -/
theorem constants_spec :
    PI = 3.14159265359 ∧ ESM_FACTOR = 100.0 ∧ PI ≠ Real.pi
      ∧ (∀ cosTheta : ℝ,
          rayleighPhase cosTheta = 3 / (16 * PI) * (1 + cosTheta ^ 2))
      ∧ (∀ g cosTheta : ℝ,
          cornetteShanksPhase g cosTheta
            = 3 / (8 * PI) * ((1 - g ^ 2) * (1 + cosTheta ^ 2))
                / ((2 + g ^ 2) * ((1 + g ^ 2 - 2 * g * cosTheta)
                    * Real.sqrt (1 + g ^ 2 - 2 * g * cosTheta))))
      ∧ uniformPhase = 1 / (4 * PI) := by
  refine ⟨rfl, rfl, ?_, fun _ => rfl, fun _ _ => rfl, rfl⟩
  intro h
  have hirr : Irrational PI := h ▸ irrational_pi
  have hq : ((314159265359 / 100000000000 : ℚ) : ℝ) = PI := by
    norm_num [PI]
  rw [← hq] at hirr
  exact (Rat.not_irrational _) hirr

/-- The Cornette-Shanks denominator argument `1 + g^2 - 2*g*c` is strictly
positive for `g` in `(-1, 1)` and `c` in `[-1, 1]`. -/
theorem cs_arg_pos (g c : ℝ) (hgl : -1 < g) (hgr : g < 1)
    (hc1 : -1 ≤ c) (hc2 : c ≤ 1) : 0 < 1 + g ^ 2 - 2 * g * c := by
  rcases le_or_lt g 0 with h | h
  · nlinarith [mul_pos (by linarith : (0:ℝ) < 1 + g) (by linarith : (0:ℝ) < 1 + g),
      mul_nonneg (by linarith : (0:ℝ) ≤ -(2 * g)) (by linarith : (0:ℝ) ≤ 1 + c)]
  · nlinarith [mul_pos (by linarith : (0:ℝ) < 1 - g) (by linarith : (0:ℝ) < 1 - g),
      mul_nonneg (by linarith : (0:ℝ) ≤ 2 * g) (by linarith : (0:ℝ) ≤ 1 - c)]

/-- The library constant `PI` is positive. -/
theorem PI_pos : 0 < PI := by
  norm_num [PI]

/-- The Cornette-Shanks phase function is non-negative on its documented
domain. -/
theorem cs_nonneg (g c : ℝ) (hgl : -1 < g) (hgr : g < 1)
    (hc1 : -1 ≤ c) (hc2 : c ≤ 1) : 0 ≤ cornetteShanksPhase g c := by
  have hk := cs_arg_pos g c hgl hgr hc1 hc2
  have hsq : 0 ≤ Real.sqrt (1 + g ^ 2 - 2 * g * c) := Real.sqrt_nonneg _
  have hPI := PI_pos
  unfold cornetteShanksPhase
  apply div_nonneg
  · apply mul_nonneg (div_nonneg (by norm_num) (by linarith))
    exact mul_nonneg (by nlinarith) (by positivity)
  · apply mul_nonneg (by positivity)
    exact mul_nonneg hk.le hsq

/-- Counterexample for C5 as stated: all inputs are inside the domain the
claim allows (`cosTheta` in `[-1, 1]`, both asymmetry parameters in
`(-1, 1)`), yet with the unconstrained weight `w = -1` the dual-lobe blend is
negative. -/
theorem dualLobPhase_negative_unclamped_weight :
    (-1 : ℝ) < 0.9 ∧ (0.9 : ℝ) < 1 ∧ (-1 : ℝ) < 0 ∧ (0 : ℝ) < 1
      ∧ (-1 : ℝ) ≤ 1 ∧ (1 : ℝ) ≤ 1
      ∧ dualLobPhase 0.9 0 (-1) 1 < 0 := by
  refine ⟨by norm_num, by norm_num, by norm_num, by norm_num, by norm_num,
    by norm_num, ?_⟩
  have h1 : Real.sqrt (1 + (0.9 : ℝ) ^ 2 - 2 * 0.9 * 1) = 0.1 := by
    rw [show (1 + (0.9 : ℝ) ^ 2 - 2 * 0.9 * 1) = 0.1 ^ 2 by norm_num,
      Real.sqrt_sq (by norm_num : (0:ℝ) ≤ 0.1)]
  have h2 : Real.sqrt (1 + (0 : ℝ) ^ 2 - 2 * 0 * 1) = 1 := by
    rw [show (1 + (0 : ℝ) ^ 2 - 2 * 0 * 1) = (1 : ℝ) by norm_num, Real.sqrt_one]
  simp only [dualLobPhase, cornetteShanksPhase, PI]
  rw [h1, h2]
  norm_num

/-- C5 (amended): for `cosTheta` in `[-1, 1]`, `rayleighPhase`,
`cornetteShanksPhase` with `g` in `(-1, 1)`, `dualLobPhase` with parameters in
`(-1, 1)` and weight `w` in `[0, 1]`, and `uniformPhase` are all non-negative;
finiteness is modelled by the strict positivity of the Cornette-Shanks
denominator (no division by zero occurs). -/
theorem phase_functions_nonneg (g g0 g1 w cosTheta : ℝ)
    (hc1 : -1 ≤ cosTheta) (hc2 : cosTheta ≤ 1)
    (hgl : -1 < g) (hgr : g < 1)
    (hg0l : -1 < g0) (hg0r : g0 < 1) (hg1l : -1 < g1) (hg1r : g1 < 1)
    (hwl : 0 ≤ w) (hwr : w ≤ 1) :
    0 ≤ rayleighPhase cosTheta
      ∧ 0 ≤ cornetteShanksPhase g cosTheta
      ∧ 0 ≤ dualLobPhase g0 g1 w cosTheta
      ∧ 0 ≤ uniformPhase
      ∧ 0 < (2 + g ^ 2) * ((1 + g ^ 2 - 2 * g * cosTheta)
          * Real.sqrt (1 + g ^ 2 - 2 * g * cosTheta)) := by
  have hPI := PI_pos
  have hk := cs_arg_pos g cosTheta hgl hgr hc1 hc2
  refine ⟨?_, cs_nonneg g cosTheta hgl hgr hc1 hc2, ?_, ?_, ?_⟩
  · unfold rayleighPhase
    exact mul_nonneg (div_nonneg (by norm_num) (by linarith)) (by positivity)
  · unfold dualLobPhase
    exact add_nonneg (mul_nonneg hwl (cs_nonneg g0 cosTheta hg0l hg0r hc1 hc2))
      (mul_nonneg (by linarith) (cs_nonneg g1 cosTheta hg1l hg1r hc1 hc2))
  · unfold uniformPhase
    exact div_nonneg (by norm_num) (by linarith)
  · exact mul_pos (by positivity) (mul_pos hk (Real.sqrt_pos.2 hk))

/-- Witness for the amended C5 at concrete inputs inside the domain. -/
theorem phase_functions_nonneg_witness :
    0 ≤ rayleighPhase 0
      ∧ 0 ≤ cornetteShanksPhase 0.5 0
      ∧ 0 ≤ dualLobPhase 0.5 (-0.5) 0.5 0
      ∧ 0 ≤ uniformPhase
      ∧ 0 < (2 + (0.5 : ℝ) ^ 2) * ((1 + (0.5 : ℝ) ^ 2 - 2 * 0.5 * 0)
          * Real.sqrt (1 + (0.5 : ℝ) ^ 2 - 2 * 0.5 * 0)) :=
  phase_functions_nonneg 0.5 0.5 (-0.5) 0.5 0 (by norm_num) (by norm_num)
    (by norm_num) (by norm_num) (by norm_num) (by norm_num) (by norm_num)
    (by norm_num) (by norm_num) (by norm_num)

/-- Derivative of the Cornette-Shanks antiderivative `csF`. -/
theorem csF_hasDerivAt (g c : ℝ) (hg : g ≠ 0)
    (hk : 0 < 1 + g ^ 2 - 2 * g * c) :
    HasDerivAt (csF g)
      ((1 + c ^ 2) / ((1 + g ^ 2 - 2 * g * c)
        * Real.sqrt (1 + g ^ 2 - 2 * g * c))) c := by
  have hsne : Real.sqrt (1 + g ^ 2 - 2 * g * c) ≠ 0 := (Real.sqrt_pos.2 hk).ne'
  have hlin : HasDerivAt (fun x : ℝ => 1 + g ^ 2 - 2 * g * x) (-(2 * g)) c := by
    simpa using ((hasDerivAt_id c).const_mul (2 * g)).const_sub (1 + g ^ 2)
  have hsqrt : HasDerivAt (fun x : ℝ => Real.sqrt (1 + g ^ 2 - 2 * g * x))
      (1 / (2 * Real.sqrt (1 + g ^ 2 - 2 * g * c)) * -(2 * g)) c := by
    simpa [Function.comp] using (Real.hasDerivAt_sqrt hk.ne').comp c hlin
  have hA := (hasDerivAt_const c
    (1 / g * (1 + (1 + g ^ 2) ^ 2 / (4 * g ^ 2)))).div hsqrt hsne
  have hB := hsqrt.const_mul ((1 + g ^ 2) / (2 * g ^ 3))
  have hC := (hlin.mul hsqrt).const_mul (1 / (12 * g ^ 3))
  have hF := (hA.add hB).sub hC
  unfold csF
  convert hF using 1
  have hss : Real.sqrt (1 + g ^ 2 - 2 * g * c) ^ 2 = 1 + g ^ 2 - 2 * g * c :=
    Real.sq_sqrt hk.le
  set s := Real.sqrt (1 + g ^ 2 - 2 * g * c) with hsdef
  rw [show 1 + g ^ 2 - 2 * g * c = s ^ 2 from hss.symm]
  have hc : c = (1 + g ^ 2 - s ^ 2) / (2 * g) := by
    rw [hss]
    field_simp
  rw [hc]
  have hs0 : s ≠ 0 := hsne
  field_simp
  ring

/-- Evaluation of the core Cornette-Shanks integral for `g ≠ 0`:
`∫_{-1}^{1} (1+c²)/((1+g²-2gc)^(3/2)) dc = 4(2+g²)/(3(1-g²))`. -/
theorem cs_core_integral (g : ℝ) (hg0 : g ≠ 0) (hgl : -1 < g) (hgr : g < 1) :
    ∫ c in (-1 : ℝ)..1, (1 + c ^ 2) / ((1 + g ^ 2 - 2 * g * c)
        * Real.sqrt (1 + g ^ 2 - 2 * g * c))
      = 4 * (2 + g ^ 2) / (3 * (1 - g ^ 2)) := by
  have hkpos : ∀ x ∈ Set.uIcc (-1 : ℝ) 1, 0 < 1 + g ^ 2 - 2 * g * x := by
    intro x hx
    rw [Set.uIcc_of_le (by norm_num : (-1 : ℝ) ≤ 1), Set.mem_Icc] at hx
    exact cs_arg_pos g x hgl hgr hx.1 hx.2
  have hderiv : ∀ x ∈ Set.uIcc (-1 : ℝ) 1,
      HasDerivAt (csF g)
        ((1 + x ^ 2) / ((1 + g ^ 2 - 2 * g * x)
          * Real.sqrt (1 + g ^ 2 - 2 * g * x))) x :=
    fun x hx => csF_hasDerivAt g x hg0 (hkpos x hx)
  have hcont : ContinuousOn
      (fun x : ℝ => (1 + x ^ 2) / ((1 + g ^ 2 - 2 * g * x)
        * Real.sqrt (1 + g ^ 2 - 2 * g * x))) (Set.uIcc (-1 : ℝ) 1) := by
    apply ContinuousOn.div
    · exact (Continuous.continuousOn (by fun_prop))
    · apply ContinuousOn.mul (Continuous.continuousOn (by fun_prop))
      exact (Real.continuous_sqrt.comp (by fun_prop)).continuousOn
    · intro x hx
      exact (mul_pos (hkpos x hx) (Real.sqrt_pos.2 (hkpos x hx))).ne'
  rw [intervalIntegral.integral_eq_sub_of_hasDerivAt hderiv
    hcont.intervalIntegrable]
  have h1 : Real.sqrt (1 + g ^ 2 - 2 * g * 1) = 1 - g := by
    rw [show 1 + g ^ 2 - 2 * g * 1 = (1 - g) ^ 2 by ring,
      Real.sqrt_sq (by linarith)]
  have h2 : Real.sqrt (1 + g ^ 2 - 2 * g * (-1)) = 1 + g := by
    rw [show 1 + g ^ 2 - 2 * g * (-1) = (1 + g) ^ 2 by ring,
      Real.sqrt_sq (by linarith)]
  unfold csF
  rw [h1, h2]
  have e1 : (1 : ℝ) - g ≠ 0 := by linarith
  have e2 : (1 : ℝ) + g ≠ 0 := by linarith
  have e3 : (1 : ℝ) - g ^ 2 ≠ 0 := by nlinarith
  field_simp
  ring

/-- The integral of `1 + c^2` over `[-1, 1]` is `8/3`. -/
theorem integral_one_add_sq : ∫ c in (-1 : ℝ)..1, (1 + c ^ 2) = 8 / 3 := by
  have hderiv : ∀ x ∈ Set.uIcc (-1 : ℝ) 1,
      HasDerivAt (fun c : ℝ => c + c ^ 3 / 3) (1 + x ^ 2) x := by
    intro x _
    have h := (hasDerivAt_id x).add ((hasDerivAt_pow 3 x).div_const 3)
    convert h using 1
    norm_num
  rw [intervalIntegral.integral_eq_sub_of_hasDerivAt hderiv
    ((Continuous.intervalIntegrable (by fun_prop) _ _))]
  norm_num

/-- The Rayleigh phase function integrates to `1/(2*PI)` over `[-1, 1]`. -/
theorem rayleigh_integral :
    ∫ c in (-1 : ℝ)..1, rayleighPhase c = 1 / (2 * PI) := by
  unfold rayleighPhase
  rw [intervalIntegral.integral_const_mul, integral_one_add_sq]
  have := PI_pos
  field_simp
  ring

/-- The Cornette-Shanks phase function integrates to `1/(2*PI)` over `[-1,1]`
for every `g` in `(-1, 1)`. -/
theorem cs_integral (g : ℝ) (hgl : -1 < g) (hgr : g < 1) :
    ∫ c in (-1 : ℝ)..1, cornetteShanksPhase g c = 1 / (2 * PI) := by
  rcases eq_or_ne g 0 with rfl | hg0
  · have heq : ∀ c : ℝ, cornetteShanksPhase 0 c = rayleighPhase c := by
      intro c
      unfold cornetteShanksPhase rayleighPhase
      rw [show (1 + (0 : ℝ) ^ 2 - 2 * 0 * c) = 1 by norm_num, Real.sqrt_one]
      ring
    simp_rw [heq]
    exact rayleigh_integral
  · have hL : ∀ c : ℝ, cornetteShanksPhase g c
        = 3 * ((1 - g ^ 2) * (1 + c ^ 2))
          / ((8 * PI) * ((2 + g ^ 2) * ((1 + g ^ 2 - 2 * g * c)
              * Real.sqrt (1 + g ^ 2 - 2 * g * c)))) := by
      intro c
      unfold cornetteShanksPhase
      rw [div_mul_eq_mul_div, div_div]
    have hR : ∀ c : ℝ, 3 * (1 - g ^ 2) / (8 * PI * (2 + g ^ 2))
          * ((1 + c ^ 2) / ((1 + g ^ 2 - 2 * g * c)
              * Real.sqrt (1 + g ^ 2 - 2 * g * c)))
        = 3 * ((1 - g ^ 2) * (1 + c ^ 2))
          / ((8 * PI) * ((2 + g ^ 2) * ((1 + g ^ 2 - 2 * g * c)
              * Real.sqrt (1 + g ^ 2 - 2 * g * c)))) := by
      intro c
      rw [div_mul_div_comm]
      congr 1 <;> ring
    have heq : ∀ c : ℝ, cornetteShanksPhase g c
        = 3 * (1 - g ^ 2) / (8 * PI * (2 + g ^ 2))
          * ((1 + c ^ 2) / ((1 + g ^ 2 - 2 * g * c)
              * Real.sqrt (1 + g ^ 2 - 2 * g * c))) :=
      fun c => (hL c).trans (hR c).symm
    simp_rw [heq]
    rw [intervalIntegral.integral_const_mul, cs_core_integral g hg0 hgl hgr]
    have hPI := PI_pos
    have e3 : (1 : ℝ) - g ^ 2 ≠ 0 := by nlinarith
    have e4 : (2 : ℝ) + g ^ 2 ≠ 0 := by positivity
    field_simp
    ring

/-- The Cornette-Shanks phase function is interval-integrable on `[-1, 1]`. -/
theorem cs_intervalIntegrable (g : ℝ) (hgl : -1 < g) (hgr : g < 1) :
    IntervalIntegrable (cornetteShanksPhase g) MeasureTheory.volume (-1) 1 := by
  apply ContinuousOn.intervalIntegrable
  rw [show cornetteShanksPhase g = fun c : ℝ =>
      3 / (8 * PI) * ((1 - g ^ 2) * (1 + c ^ 2))
        / ((2 + g ^ 2) * ((1 + g ^ 2 - 2 * g * c)
            * Real.sqrt (1 + g ^ 2 - 2 * g * c))) from rfl]
  apply ContinuousOn.div
  · exact Continuous.continuousOn (by fun_prop)
  · apply ContinuousOn.mul (Continuous.continuousOn (by fun_prop))
    apply ContinuousOn.mul (Continuous.continuousOn (by fun_prop))
    exact (Real.continuous_sqrt.comp (by fun_prop)).continuousOn
  · intro x hx
    rw [Set.uIcc_of_le (by norm_num : (-1 : ℝ) ≤ 1), Set.mem_Icc] at hx
    have hk := cs_arg_pos g x hgl hgr hx.1 hx.2
    exact (mul_pos (by positivity) (mul_pos hk (Real.sqrt_pos.2 hk))).ne'

/-- The dual-lobe phase function integrates to `1/(2*PI)` over `[-1, 1]`. -/
theorem duallob_integral (g0 g1 w : ℝ) (hg0l : -1 < g0) (hg0r : g0 < 1)
    (hg1l : -1 < g1) (hg1r : g1 < 1) :
    ∫ c in (-1 : ℝ)..1, dualLobPhase g0 g1 w c = 1 / (2 * PI) := by
  have heq : ∀ c : ℝ, dualLobPhase g0 g1 w c
      = w * cornetteShanksPhase g0 c + (1 - w) * cornetteShanksPhase g1 c :=
    fun c => rfl
  simp_rw [heq]
  rw [intervalIntegral.integral_add
    ((cs_intervalIntegrable g0 hg0l hg0r).const_mul w)
    ((cs_intervalIntegrable g1 hg1l hg1r).const_mul (1 - w))]
  rw [intervalIntegral.integral_const_mul, intervalIntegral.integral_const_mul,
    cs_integral g0 hg0l hg0r, cs_integral g1 hg1l hg1r]
  ring

/-- The quantity `2π/(2*PI)` is within `1/1000` of `1`: the exact solid-angle
factor against the library's decimal approximation of pi. -/
theorem phase_normalization_bound :
    |2 * Real.pi * (1 / (2 * PI)) - 1| ≤ 1 / 1000 := by
  have h1 : (3.141592 : ℝ) < Real.pi := Real.pi_gt_d6
  have h2 : Real.pi < 3.141593 := Real.pi_lt_d6
  rw [abs_le]
  simp only [PI]
  constructor <;> nlinarith

/-- C6: each phase function — Rayleigh, Cornette-Shanks with `g` in `(-1,1)`,
dual-lobe with parameters in `(-1,1)` and weight in `[0,1]`, and uniform —
integrated over the full sphere of solid angle yields `1` within the `1e-3`
tolerance (the exact value is `π/PI`, the exact pi over the library's decimal
approximation). -/
theorem phase_functions_normalized (g g0 g1 w : ℝ)
    (hgl : -1 < g) (hgr : g < 1)
    (hg0l : -1 < g0) (hg0r : g0 < 1) (hg1l : -1 < g1) (hg1r : g1 < 1)
    (hwl : 0 ≤ w) (hwr : w ≤ 1) :
    |sphereIntegral rayleighPhase - 1| ≤ 1 / 1000
      ∧ |sphereIntegral (cornetteShanksPhase g) - 1| ≤ 1 / 1000
      ∧ |sphereIntegral (dualLobPhase g0 g1 w) - 1| ≤ 1 / 1000
      ∧ |sphereIntegral (fun _ => uniformPhase) - 1| ≤ 1 / 1000 := by
  simp only [sphereIntegral]
  refine ⟨?_, ?_, ?_, ?_⟩
  · rw [rayleigh_integral]
    exact phase_normalization_bound
  · rw [cs_integral g hgl hgr]
    exact phase_normalization_bound
  · rw [duallob_integral g0 g1 w hg0l hg0r hg1l hg1r]
    exact phase_normalization_bound
  · have hu : (∫ _ in (-1 : ℝ)..1, uniformPhase) = 1 / (2 * PI) := by
      rw [intervalIntegral.integral_const, smul_eq_mul]
      unfold uniformPhase
      have := PI_pos
      field_simp
      ring
    rw [hu]
    exact phase_normalization_bound

/-- Witness for C6 at concrete asymmetry parameters and weight. -/
theorem phase_functions_normalized_witness :
    |sphereIntegral rayleighPhase - 1| ≤ 1 / 1000
      ∧ |sphereIntegral (cornetteShanksPhase 0.5) - 1| ≤ 1 / 1000
      ∧ |sphereIntegral (dualLobPhase 0.5 (-0.5) 0.5) - 1| ≤ 1 / 1000
      ∧ |sphereIntegral (fun _ => uniformPhase) - 1| ≤ 1 / 1000 :=
  phase_functions_normalized 0.5 0.5 (-0.5) 0.5 (by norm_num) (by norm_num)
    (by norm_num) (by norm_num) (by norm_num) (by norm_num) (by norm_num)
    (by norm_num)
